import Mathlib

/-!
# secboot `efi.go`: image handles, image adapters and the load-event tree

A shallow embedding of `efi.go`.  Go calls that touch the outside world (the
snap container, its member handles, the `os` package) are functions on a world
state; every call made through one of those interfaces is appended to a call
log, so that "called exactly once" is a statement about the log.
-/

namespace Secboot

/-! ## Go values -/

/-- A byte of file or member content. -/
abbrev Byte := Fin 256

/-- A non-nil Go `error` value; the nil error is `Option.none`. -/
structure GoError where
  msg : String
deriving DecidableEq, Repr

/-- How a Go call ends: it returns a value, or it panics with a message. -/
inductive Outcome (α : Type) where
  | ret (a : α)
  | panic (msg : String)
deriving DecidableEq, Repr

/-- The outcome is a normal return (no panic). -/
def Outcome.returns {α : Type} : Outcome α → Bool
  | .ret _ => true
  | .panic _ => false

/-- The message of the Go runtime panic raised by a method call on a nil interface value. -/
def nilDereference : String :=
  "runtime error: invalid memory address or nil pointer dereference"

/-- One call made through an external interface, as recorded in the call log. -/
inductive Call where
  | RandomAccessFile (container : Nat) (name : String)
  | ReadAt (handle : Nat) (p : List Byte) (off : Int)
  | Close (handle : Nat)
  | osOpen (name : String)
  | osStat (file : Nat)
  | osReadAt (file : Nat) (p : List Byte) (off : Int)
  | osClose (file : Nat)
deriving DecidableEq, Repr

/-- The world a Go call runs in: the state of everything external, and the log of the
calls made so far through the external interfaces. -/
structure World (σ : Type) where
  st : σ
  calls : List Call

/-- A Go call with side effects on the world. -/
abbrev Go (σ α : Type) := World σ → Outcome α × World σ

/-! ## Constants (efi.go lines 29-35) -/

/-- Boot Manager Code and Boot Attempts PCR. -/
def bootManagerCodePCR : Nat := 4

/-- Index of the Certificate Table entry in the Data Directory of a PE image optional header. -/
def certTableIndex : Nat := 4

/-- Path of the TCG event log for the default TPM, in binary form. -/
def eventLogPath : String := "/sys/kernel/security/tpm0/binary_bios_measurements"

/-! ## External interfaces -/

/-- A value of Go type `interface { io.ReaderAt; io.Closer }`: an arbitrary implementation,
tagged with an identity for the call log.  `ReadAt p off` receives the buffer `p` and
returns the buffer after the call, the byte count and the error. -/
structure ReadAtCloser (σ : Type) where
  id : Nat
  ReadAt : List Byte → Int → σ → Outcome (List Byte × Int × Option GoError) × σ
  Close : σ → Outcome (Option GoError) × σ

/-- The one method of `snap.Container` that efi.go uses.  The Go result pair
`(handle, err)` is kept as a pair: either component may be nil. -/
structure snap.Container (σ : Type) where
  id : Nat
  RandomAccessFile : String → σ → Outcome (Option (ReadAtCloser σ) × Option GoError) × σ

/-- What `(*os.File).Stat` reports; only `Size()` is used. -/
structure FileInfo where
  Size : Int
deriving DecidableEq, Repr

/-- The functions of package `os` that efi.go uses, over open-file descriptors.  Each
returns a value or an error (the package never returns both nil), and never panics. -/
structure OS (σ : Type) where
  Open : String → σ → Except GoError Nat × σ
  Stat : Nat → σ → Except GoError FileInfo × σ
  ReadAt : Nat → List Byte → Int → σ → (List Byte × Int × Option GoError) × σ
  Close : Nat → σ → Option GoError × σ

/-! ### Calls through the interfaces, with logging -/

/-- Method call `c.RandomAccessFile(name)` on an interface value `c`. -/
def callRandomAccessFile {σ : Type} (c : Option (snap.Container σ)) (name : String) :
    Go σ (Option (ReadAtCloser σ) × Option GoError) := fun w =>
  match c with
  | none => (.panic nilDereference, w)
  | some c =>
    let r := c.RandomAccessFile name w.st
    (r.1, { st := r.2, calls := w.calls ++ [Call.RandomAccessFile c.id name] })

/-- Method call `h.ReadAt(p, off)` on an interface value `h`. -/
def callReadAt {σ : Type} (h : Option (ReadAtCloser σ)) (p : List Byte) (off : Int) :
    Go σ (List Byte × Int × Option GoError) := fun w =>
  match h with
  | none => (.panic nilDereference, w)
  | some b =>
    let r := b.ReadAt p off w.st
    (r.1, { st := r.2, calls := w.calls ++ [Call.ReadAt b.id p off] })

/-- Method call `h.Close()` on an interface value `h`. -/
def callClose {σ : Type} (h : Option (ReadAtCloser σ)) : Go σ (Option GoError) := fun w =>
  match h with
  | none => (.panic nilDereference, w)
  | some b =>
    let r := b.Close w.st
    (r.1, { st := r.2, calls := w.calls ++ [Call.Close b.id] })

/-- The call `os.Open(name)`. -/
def osOpen {σ : Type} (os : OS σ) (name : String) : World σ → Except GoError Nat × World σ :=
  fun w =>
    let r := os.Open name w.st
    (r.1, { st := r.2, calls := w.calls ++ [Call.osOpen name] })

/-- The call `f.Stat()` on an open file. -/
def osStat {σ : Type} (os : OS σ) (f : Nat) : World σ → Except GoError FileInfo × World σ :=
  fun w =>
    let r := os.Stat f w.st
    (r.1, { st := r.2, calls := w.calls ++ [Call.osStat f] })

/-- The call `f.ReadAt(p, off)` on an open file. -/
def osReadAt {σ : Type} (os : OS σ) (f : Nat) (p : List Byte) (off : Int) :
    World σ → (List Byte × Int × Option GoError) × World σ := fun w =>
  let r := os.ReadAt f p off w.st
  (r.1, { st := r.2, calls := w.calls ++ [Call.osReadAt f p off] })

/-- The call `f.Close()` on an open file. -/
def osClose {σ : Type} (os : OS σ) (f : Nat) : World σ → Option GoError × World σ := fun w =>
  let r := os.Close f w.st
  (r.1, { st := r.2, calls := w.calls ++ [Call.osClose f] })

/-! ## Image handles and adapters (efi.go lines 47-116) -/

/-- The handle of a snap member: `struct { h interface { io.ReaderAt; io.Closer } }`. -/
structure snapFileEFIImageHandle (σ : Type) where
  h : Option (ReadAtCloser σ)

/-- `return h.h.ReadAt(p, off)` -/
def snapFileEFIImageHandle.ReadAt {σ : Type} (h : snapFileEFIImageHandle σ)
    (p : List Byte) (off : Int) : Go σ (List Byte × Int × Option GoError) :=
  callReadAt h.h p off

/-- `return h.h.Close()` -/
def snapFileEFIImageHandle.Close {σ : Type} (h : snapFileEFIImageHandle σ) :
    Go σ (Option GoError) :=
  callClose h.h

/-- `panic("not implemented")` -/
def snapFileEFIImageHandle.Size {σ : Type} (_h : snapFileEFIImageHandle σ) :
    Go σ (Int × Option GoError) := fun w =>
  (.panic "not implemented", w)

/-- The handle of a file on disk: `struct { *os.File }`. -/
structure fileEFIImageHandle where
  File : Nat
deriving DecidableEq, Repr

/-- `fi, err := h.Stat(); if err != nil { return 0, err }; return fi.Size(), nil` -/
def fileEFIImageHandle.Size {σ : Type} (os : OS σ) (h : fileEFIImageHandle) :
    Go σ (Int × Option GoError) := fun w =>
  match osStat os h.File w with
  | (.error err, w1) => (.ret (0, some err), w1)
  | (.ok fi, w1) => (.ret (fi.Size, none), w1)

/-- The method `ReadAt` promoted from the embedded `*os.File`. -/
def fileEFIImageHandle.ReadAt {σ : Type} (os : OS σ) (h : fileEFIImageHandle)
    (p : List Byte) (off : Int) : Go σ (List Byte × Int × Option GoError) := fun w =>
  let r := osReadAt os h.File p off w
  (.ret r.1, r.2)

/-- The method `Close` promoted from the embedded `*os.File`. -/
def fileEFIImageHandle.Close {σ : Type} (os : OS σ) (h : fileEFIImageHandle) :
    Go σ (Option GoError) := fun w =>
  let r := osClose os h.File w
  (.ret r.1, r.2)

/-- A value of the interface type returned by `Open`: one of the two handle types. -/
inductive Handle (σ : Type) where
  | snapFile (h : snapFileEFIImageHandle σ)
  | file (h : fileEFIImageHandle)

/-- Dynamic dispatch of `ReadAt` on a handle. -/
def Handle.ReadAt {σ : Type} (os : OS σ) : Handle σ → List Byte → Int →
    Go σ (List Byte × Int × Option GoError)
  | .snapFile h => h.ReadAt
  | .file h => h.ReadAt os

/-- Dynamic dispatch of `Size` on a handle. -/
def Handle.Size {σ : Type} (os : OS σ) : Handle σ → Go σ (Int × Option GoError)
  | .snapFile h => h.Size
  | .file h => h.Size os

/-- Dynamic dispatch of `Close` on a handle. -/
def Handle.Close {σ : Type} (os : OS σ) : Handle σ → Go σ (Option GoError)
  | .snapFile h => h.Close
  | .file h => h.Close os

/-- A binary contained within a snap file. -/
structure SnapFileEFIImage (σ : Type) where
  Container : Option (snap.Container σ)
  Path : String
  FileName : String

/-- `return "snap:" + f.Path + ":" + f.FileName` -/
def SnapFileEFIImage.String {σ : Type} (f : SnapFileEFIImage σ) : String :=
  "snap:" ++ f.Path ++ ":" ++ f.FileName

/-- `h, err := f.Container.RandomAccessFile(f.FileName); if err != nil { return nil, err };
return &snapFileEFIImageHandle{h}, nil` -/
def SnapFileEFIImage.Open {σ : Type} (f : SnapFileEFIImage σ) :
    Go σ (Option (Handle σ) × Option GoError) := fun w =>
  match callRandomAccessFile f.Container f.FileName w with
  | (.panic msg, w1) => (.panic msg, w1)
  | (.ret (_, some err), w1) => (.ret (none, some err), w1)
  | (.ret (h, none), w1) => (.ret (some (.snapFile { h := h }), none), w1)

/-- A file on disk: `type FileEFIImage string`. -/
abbrev FileEFIImage := String

/-- `return string(p)` -/
def FileEFIImage.String (p : FileEFIImage) : String := p

/-- `f, err := os.Open(string(p)); if err != nil { return nil, err };
return &fileEFIImageHandle{f}, nil` -/
def FileEFIImage.Open {σ : Type} (os : OS σ) (p : FileEFIImage) :
    Go σ (Option (Handle σ) × Option GoError) := fun w =>
  match osOpen os p w with
  | (.error err, w1) => (.ret (none, some err), w1)
  | (.ok f, w1) => (.ret (some (.file { File := f }), none), w1)

/-- A value of interface type `EFIImage`: one of the two image types of efi.go. -/
inductive EFIImage (σ : Type) where
  | snapFile (f : SnapFileEFIImage σ)
  | file (p : FileEFIImage)

/-- Dynamic dispatch of `String` on an image. -/
def EFIImage.String {σ : Type} : EFIImage σ → String
  | .snapFile f => f.String
  | .file p => FileEFIImage.String p

/-- Dynamic dispatch of `Open` on an image. -/
def EFIImage.Open {σ : Type} (os : OS σ) : EFIImage σ → Go σ (Option (Handle σ) × Option GoError)
  | .snapFile f => f.Open
  | .file p => FileEFIImage.Open os p

/-! ## Load events (efi.go lines 118-138) -/

/-- The source of an `EFIImageLoadEvent`: `type EFIImageLoadEventSource int`. -/
abbrev EFIImageLoadEventSource := Int

/-- Firmware is the first constant of the `iota` block. -/
def Firmware : EFIImageLoadEventSource := 0

/-- Shim is the second constant of the `iota` block. -/
def Shim : EFIImageLoadEventSource := 1

/-- The execution of a verified `EFIImage`.  `Image` is an interface value and may be nil;
`Next` holds the possible subsequent events (a finite tree: no nil, shared or cyclic
pointers). -/
inductive EFIImageLoadEvent (σ : Type) where
  | mk (Source : EFIImageLoadEventSource) (Image : Option (EFIImage σ))
      (Next : List (EFIImageLoadEvent σ))

/-- Field `Source`. -/
def EFIImageLoadEvent.Source {σ : Type} : EFIImageLoadEvent σ → EFIImageLoadEventSource
  | .mk s _ _ => s

/-- Field `Image`. -/
def EFIImageLoadEvent.Image {σ : Type} : EFIImageLoadEvent σ → Option (EFIImage σ)
  | .mk _ i _ => i

/-- Field `Next`. -/
def EFIImageLoadEvent.Next {σ : Type} : EFIImageLoadEvent σ → List (EFIImageLoadEvent σ)
  | .mk _ _ n => n

/-- The Go zero value `EFIImageLoadEvent{}`: every field is the zero value of its type. -/
def EFIImageLoadEvent.zero (σ : Type) : EFIImageLoadEvent σ := .mk 0 none []

/-- One step of a boot path: the source tag and the image of an event. -/
abbrev PathStep (σ : Type) := EFIImageLoadEventSource × Option (EFIImage σ)

/-- An event met on a path.  `Next` holds pointers, so an event is identified by where it
sits in the tree and not by the values of its fields: `slot` is the position of the event
in the `Next` of the event before it on the path (0 for the root).  Two events with the
same source and image in different positions are two events. -/
structure PathEvent (σ : Type) where
  slot : Nat
  Source : EFIImageLoadEventSource
  Image : Option (EFIImage σ)

/-- The (Source, Image) pair of an event met on a path. -/
def PathEvent.step {σ : Type} (e : PathEvent σ) : PathStep σ := (e.Source, e.Image)

/-- The sequence of (Source, Image) pairs along a path. -/
def steps {σ : Type} (p : List (PathEvent σ)) : List (PathStep σ) := p.map PathEvent.step

/-- The route of a path: the `Next` position taken at each event. -/
def slots {σ : Type} (p : List (PathEvent σ)) : List Nat := p.map PathEvent.slot

mutual
/-- Modelled from the spec: efi.go declares the event tree but no traversal; this is the
"depth-first enumeration from each root to every leaf, yielding the ordered sequence of
Images (with their Source tags) along that path" of spec section 4.2, for the event that
sits at position `k` of its parent's `Next`. -/
def enumerateFrom {σ : Type} : Nat → EFIImageLoadEvent σ → List (List (PathEvent σ))
  | k, .mk s i [] => [[{ slot := k, Source := s, Image := i }]]
  | k, .mk s i (c :: cs) =>
    (enumerateAll 0 (c :: cs)).map (fun p => { slot := k, Source := s, Image := i } :: p)
/-- Modelled from the spec: the paths below each event of a `Next` list, in list order;
`k` is the position of the first event of the list. -/
def enumerateAll {σ : Type} : Nat → List (EFIImageLoadEvent σ) → List (List (PathEvent σ))
  | _, [] => []
  | k, c :: cs => enumerateFrom k c ++ enumerateAll (k + 1) cs
end

/-- Modelled from the spec: the depth-first enumeration of the paths of a tree from its
root (spec section 4.2: "two runs over the same tree produce the same set of paths in the
same order"). -/
def enumerate {σ : Type} (t : EFIImageLoadEvent σ) : List (List (PathEvent σ)) :=
  enumerateFrom 0 t

/-- A root-to-leaf path of the event at position `k`: it starts at that event, each step
moves to the event at some position `j` of the current `Next`, and it ends at an event
whose `Next` is empty. -/
inductive RootToLeaf {σ : Type} : Nat → EFIImageLoadEvent σ → List (PathEvent σ) → Prop where
  | leaf (k : Nat) (s : EFIImageLoadEventSource) (i : Option (EFIImage σ)) :
      RootToLeaf k (.mk s i []) [{ slot := k, Source := s, Image := i }]
  | step (k : Nat) (s : EFIImageLoadEventSource) (i : Option (EFIImage σ))
      (cs : List (EFIImageLoadEvent σ)) (j : Nat) (c : EFIImageLoadEvent σ)
      (p : List (PathEvent σ)) :
      cs[j]? = some c → RootToLeaf j c p →
      RootToLeaf k (.mk s i cs) ({ slot := k, Source := s, Image := i } :: p)

mutual
/-- Number of leaves (events with empty `Next`) of a tree. -/
def leafCount {σ : Type} : EFIImageLoadEvent σ → Nat
  | .mk _ _ [] => 1
  | .mk _ _ (c :: cs) => leafCountAll (c :: cs)
/-- Number of leaves below the events of a list. -/
def leafCountAll {σ : Type} : List (EFIImageLoadEvent σ) → Nat
  | [] => 0
  | c :: cs => leafCount c + leafCountAll cs
end

/-- The linear chain built from a first step and the steps that follow it. -/
def chain {σ : Type} : PathStep σ → List (PathStep σ) → EFIImageLoadEvent σ
  | e, [] => .mk e.1 e.2 []
  | e, e1 :: es => .mk e.1 e.2 [chain e1 es]

/-- The example of spec section 8: "bootloader.efi" loaded by firmware, followed by
either "kernel-A.efi" or "kernel-B.efi" loaded by shim. -/
def exampleTree (σ : Type) : EFIImageLoadEvent σ :=
  .mk Firmware (some (.file "bootloader.efi"))
    [ .mk Shim (some (.file "kernel-A.efi")) [],
      .mk Shim (some (.file "kernel-B.efi")) [] ]

/-! ## An in-memory file system for package `os` -/

/-- A file system: directory entries name inodes, inodes hold file contents, and the
open-file table maps a descriptor to its inode (`none` once closed).  Only regular
files and no permissions are modelled. -/
structure FileSys where
  names : List (String × Nat)
  inodes : List (List Byte)
  fds : List (Option Nat)
deriving DecidableEq, Repr

/-- The error of `os.Open` on a path that does not exist. -/
def errNotExist (name : String) : GoError :=
  { msg := "open " ++ name ++ ": no such file or directory" }

/-- The error of an operation on a file that is not open. -/
def errClosed : GoError := { msg := "file already closed" }

/-- The error of `ReadAt` with a negative offset. -/
def errNegativeOffset : GoError := { msg := "negative offset" }

/-- The error `io.EOF`. -/
def errEOF : GoError := { msg := "EOF" }

/-- The content of the file that a path names, if it exists. -/
def FileSys.fileAt (fs : FileSys) (name : String) : Option (List Byte) :=
  match fs.names.lookup name with
  | none => none
  | some i => fs.inodes[i]?

/-- The content of the file behind an open descriptor. -/
def FileSys.content (fs : FileSys) (f : Nat) : Option (List Byte) :=
  match fs.fds[f]? with
  | some (some i) => fs.inodes[i]?
  | _ => none

/-- Replace the content of the file that a path names (done by some other program). -/
def FileSys.write (fs : FileSys) (name : String) (d : List Byte) : FileSys :=
  match fs.names.lookup name with
  | none => fs
  | some i => { fs with inodes := fs.inodes.set i d }

/-- The function `os.Open`: a new descriptor for an existing file, Not-Found otherwise. -/
def memOpen (name : String) (fs : FileSys) : Except GoError Nat × FileSys :=
  match fs.names.lookup name with
  | none => (.error (errNotExist name), fs)
  | some i =>
    match fs.inodes[i]? with
    | none => (.error (errNotExist name), fs)
    | some _ => (.ok fs.fds.length, { fs with fds := fs.fds ++ [some i] })

/-- The method `(*os.File).Stat`: the length of the file at the time of the call. -/
def memStat (f : Nat) (fs : FileSys) : Except GoError FileInfo × FileSys :=
  match fs.content f with
  | none => (.error errClosed, fs)
  | some d => (.ok { Size := d.length }, fs)

/-- The method `(*os.File).ReadAt`: fills `p` from offset `off`; fewer than `len(p)` bytes
come with `io.EOF`. -/
def memReadAt (f : Nat) (p : List Byte) (off : Int) (fs : FileSys) :
    (List Byte × Int × Option GoError) × FileSys :=
  match fs.content f with
  | none => ((p, 0, some errClosed), fs)
  | some d =>
    if off < 0 then ((p, 0, some errNegativeOffset), fs)
    else
      let got := (d.drop off.toNat).take p.length
      ((got ++ p.drop got.length, got.length,
        if got.length < p.length then some errEOF else none), fs)

/-- The method `(*os.File).Close`. -/
def memClose (f : Nat) (fs : FileSys) : Option GoError × FileSys :=
  match fs.fds[f]? with
  | some (some _) => (none, { fs with fds := fs.fds.set f none })
  | _ => (some errClosed, fs)

/-- Package `os` over the in-memory file system. -/
def memOS : OS FileSys :=
  { Open := memOpen, Stat := memStat, ReadAt := memReadAt, Close := memClose }

/-! ## Sample objects used to instantiate the theorems -/

/-- A member handle that serves a fixed content. -/
def memberHandle (id : Nat) (d : List Byte) : ReadAtCloser FileSys :=
  { id := id
    ReadAt := fun p off fs =>
      if off < 0 then (.ret (p, 0, some errNegativeOffset), fs)
      else
        let got := (d.drop off.toNat).take p.length
        (.ret (got ++ p.drop got.length, got.length,
          if got.length < p.length then some errEOF else none), fs)
    Close := fun fs => (.ret none, fs) }

/-- A member handle whose operations all fail with the given error. -/
def brokenHandle (id : Nat) (e : GoError) : ReadAtCloser FileSys :=
  { id := id
    ReadAt := fun p _ fs => (.ret (p, 0, some e), fs)
    Close := fun fs => (.ret (some e), fs) }

/-- A container with one member. -/
def demoContainer : snap.Container FileSys :=
  { id := 7
    RandomAccessFile := fun name fs =>
      if name = "EFI/boot/grubx64.efi" then (.ret (some (memberHandle 1 [77, 90, 1, 2]), none), fs)
      else (.ret (none, some (errNotExist name)), fs) }

/-- An image inside the sample container. -/
def demoImage : SnapFileEFIImage FileSys :=
  { Container := some demoContainer
    Path := "/var/lib/snapd/snaps/grub_1.snap"
    FileName := "EFI/boot/grubx64.efi" }

/-- An image whose member is missing from the sample container. -/
def missingImage : SnapFileEFIImage FileSys :=
  { Container := some demoContainer
    Path := "/var/lib/snapd/snaps/grub_1.snap"
    FileName := "EFI/boot/absent.efi" }

/-- A file system with one file of five bytes. -/
def demoFS : FileSys :=
  { names := [("/boot/efi/EFI/ubuntu/shimx64.efi", 0)]
    inodes := [[77, 90, 3, 4, 5]]
    fds := [] }

/-- The sample world before any call. -/
def demoWorld : World FileSys := { st := demoFS, calls := [] }

/-- The sample world once the sample file has been opened: descriptor 0 is open on it. -/
def demoOpened : World FileSys :=
  { st := { names := demoFS.names, inodes := demoFS.inodes, fds := [some 0] }
    calls := [Call.osOpen "/boot/efi/EFI/ubuntu/shimx64.efi"] }

/-! ## Theorems -/

/-- C8: the two constants shared with the digesting stage are the plain constants
`bootManagerCodePCR = 4` and `certTableIndex = 4`. -/
theorem constants_have_documented_values : bootManagerCodePCR = 4 ∧ certTableIndex = 4 :=
  ⟨rfl, rfl⟩

/-- C10: the source tags are `Firmware = 0` and `Shim = 1`, hence distinct; the zero-valued
event (nil image, empty `Next`) is tagged `Firmware`; and the tag type holds other integers
too, for example 2. -/
theorem source_tags_and_zero_value (σ : Type) :
    Firmware = 0 ∧ Shim = 1 ∧ Firmware ≠ Shim ∧
    (EFIImageLoadEvent.zero σ).Source = Firmware ∧
    (EFIImageLoadEvent.zero σ).Image.isNone = true ∧
    (EFIImageLoadEvent.zero σ).Next = [] ∧
    ((2 : EFIImageLoadEventSource) ≠ Firmware ∧ (2 : EFIImageLoadEventSource) ≠ Shim ∧
      (EFIImageLoadEvent.mk (σ := σ) 2 none []).Source = 2) := by
  refine ⟨rfl, rfl, by decide, rfl, rfl, rfl, by decide, by decide, rfl⟩

/-- C6: `String()` is a function of the stored text only.  A snap image is labelled
"snap:" ++ Path ++ ":" ++ FileName, whatever its container; a file image is labelled by
its bare path; the label of an image is computed from these fields alone (`String` takes
no world, so no `Open`, `ReadAt` or `Close` can change it), and two images with the same
text fields, hence also one image asked twice, get the same text. -/
theorem String_is_pure (σ : Type) :
    (∀ f : SnapFileEFIImage σ, f.String = "snap:" ++ f.Path ++ ":" ++ f.FileName) ∧
    (∀ (f : SnapFileEFIImage σ) (c : Option (snap.Container σ)),
      ({ f with Container := c } : SnapFileEFIImage σ).String = f.String) ∧
    (∀ f g : SnapFileEFIImage σ, f.Path = g.Path → f.FileName = g.FileName →
      f.String = g.String) ∧
    (∀ p : FileEFIImage, FileEFIImage.String p = p) ∧
    (∀ i : EFIImage σ,
      i.String = match i with
        | .snapFile f => "snap:" ++ f.Path ++ ":" ++ f.FileName
        | .file p => p) := by
  refine ⟨fun _ => rfl, fun _ _ => rfl, ?_, fun _ => rfl, ?_⟩
  · intro f g hp hn
    simp only [SnapFileEFIImage.String, hp, hn]
  · intro i
    cases i <;> rfl

/-- C6 on the sample image: with its container taken away it has the same text fields, and
the same label. -/
theorem String_is_pure_witness :
    demoImage.String
      = ({ demoImage with Container := none } : SnapFileEFIImage FileSys).String :=
  (String_is_pure FileSys).2.2.1 demoImage { demoImage with Container := none } rfl rfl

/-- Splitting a list at the first occurrence of a separator is unique. -/
theorem split_at_separator_unique {α : Type} (c : α) :
    ∀ (p1 p2 f1 f2 : List α), c ∉ p1 → c ∉ p2 → p1 ++ c :: f1 = p2 ++ c :: f2 →
      p1 = p2 ∧ f1 = f2
  | [], [], _, _, _, _, h => by simpa using h
  | [], y :: p2, _, _, _, h2, h => by
      simp only [List.nil_append, List.cons_append, List.cons.injEq] at h
      exact absurd (h.1 ▸ List.mem_cons_self _ _) h2
  | x :: p1, [], _, _, h1, _, h => by
      simp only [List.nil_append, List.cons_append, List.cons.injEq] at h
      exact absurd (h.1 ▸ List.mem_cons_self _ _) h1
  | x :: p1, y :: p2, f1, f2, h1, h2, h => by
      simp only [List.cons_append, List.cons.injEq] at h
      have ih := split_at_separator_unique c p1 p2 f1 f2
        (fun hm => h1 (List.mem_cons_of_mem _ hm)) (fun hm => h2 (List.mem_cons_of_mem _ hm)) h.2
      exact ⟨by rw [h.1, ih.1], ih.2⟩

/-- C9: the label of a snap image determines (Path, FileName) when neither path contains
a colon, and without that restriction it does not: Path "a:b", FileName "c" and Path "a",
FileName "b:c" are both labelled "snap:a:b:c". -/
theorem String_injective_iff_no_colon (σ : Type) :
    (∀ a b : SnapFileEFIImage σ, ':' ∉ a.Path.toList → ':' ∉ b.Path.toList →
      a.String = b.String → a.Path = b.Path ∧ a.FileName = b.FileName) ∧
    (({ Container := none, Path := "a:b", FileName := "c" } : SnapFileEFIImage σ).String
        = "snap:a:b:c" ∧
      ({ Container := none, Path := "a", FileName := "b:c" } : SnapFileEFIImage σ).String
        = "snap:a:b:c" ∧
      ("a:b" : String) ≠ "a" ∧ ("c" : String) ≠ "b:c") := by
  refine ⟨?_, rfl, rfl, by decide, by decide⟩
  intro a b ha hb h
  have h1 : ("snap:" ++ a.Path ++ ":" ++ a.FileName).data
      = ("snap:" ++ b.Path ++ ":" ++ b.FileName).data := congrArg String.data h
  simp only [String.data_append, List.append_assoc] at h1
  have h2 := List.append_cancel_left h1
  have h3 := split_at_separator_unique ':' a.Path.data b.Path.data a.FileName.data
    b.FileName.data ha hb h2
  exact ⟨String.ext_iff.mpr h3.1, String.ext_iff.mpr h3.2⟩

/-- C9 on the sample image and the image with the same text fields and no container: their
paths have no colon and their labels agree, so their paths and file names agree. -/
theorem String_injective_iff_no_colon_witness :
    demoImage.Path = ({ demoImage with Container := none } : SnapFileEFIImage FileSys).Path ∧
    demoImage.FileName
      = ({ demoImage with Container := none } : SnapFileEFIImage FileSys).FileName :=
  (String_injective_iff_no_colon FileSys).1 demoImage { demoImage with Container := none }
    (by decide) (by decide) rfl

/-! ### Opening an image -/

/-- C3: `Open()` fails exactly when the backend open fails and then returns no handle and
the backend error; when the backend open succeeds it returns a handle and a nil error.
On the in-memory file system a path that names no file fails with Not-Found. -/
theorem Open_fails_iff_backend_fails {σ : Type} (os : OS σ) (w : World σ) :
    (∀ p : FileEFIImage,
      (∀ e s, os.Open p w.st = (.error e, s) →
        (FileEFIImage.Open os p w).1 = .ret (none, some e)) ∧
      (∀ fd s, os.Open p w.st = (.ok fd, s) →
        (FileEFIImage.Open os p w).1 = .ret (some (.file { File := fd }), none))) ∧
    (∀ (f : SnapFileEFIImage σ) (c : snap.Container σ), f.Container = some c →
      (∀ h e s, c.RandomAccessFile f.FileName w.st = (.ret (h, some e), s) →
        (f.Open w).1 = .ret (none, some e)) ∧
      (∀ h s, c.RandomAccessFile f.FileName w.st = (.ret (h, none), s) →
        (f.Open w).1 = .ret (some (.snapFile { h := h }), none))) ∧
    (∀ (fs : FileSys) (calls : List Call) (p : FileEFIImage), fs.fileAt p = none →
      (FileEFIImage.Open memOS p { st := fs, calls := calls }).1
        = .ret (none, some (errNotExist p))) := by
  refine ⟨fun p => ⟨?_, ?_⟩, fun f c hc => ⟨?_, ?_⟩, ?_⟩
  · intro e s h
    simp [FileEFIImage.Open, osOpen, h]
  · intro fd s h
    simp [FileEFIImage.Open, osOpen, h]
  · intro h e s hr
    simp [SnapFileEFIImage.Open, callRandomAccessFile, hc, hr]
  · intro h s hr
    simp [SnapFileEFIImage.Open, callRandomAccessFile, hc, hr]
  · intro fs calls p hp
    unfold FileSys.fileAt at hp
    simp only [FileEFIImage.Open, osOpen, memOS, memOpen]
    split at hp
    · rename_i hl
      simp [hl]
    · rename_i i hl
      simp [hl, hp]

/-- C3 on the samples: the file system has no "/boot/none.efi" and the container has no
member "EFI/boot/absent.efi", so both opens return no handle and the backend error. -/
theorem Open_fails_iff_backend_fails_witness :
    (FileEFIImage.Open memOS "/boot/none.efi" demoWorld).1
        = .ret (none, some (errNotExist "/boot/none.efi")) ∧
    (missingImage.Open demoWorld).1
        = .ret (none, some (errNotExist "EFI/boot/absent.efi")) :=
  ⟨(Open_fails_iff_backend_fails memOS demoWorld).2.2 demoFS [] "/boot/none.efi" rfl,
   ((Open_fails_iff_backend_fails memOS demoWorld).2.1 missingImage demoContainer rfl).1
      none (errNotExist "EFI/boot/absent.efi") demoFS rfl⟩

/-- C2: when the container's `RandomAccessFile(f.FileName)` returns handle `h` and a nil
error, `f.Open()` returns a handle and a nil error after exactly that one call, whatever
`f.Path` is, and `ReadAt(p, off)` on the returned handle ends as `h.ReadAt(p, off)` ends:
same outcome (buffer, count and error) and same effect on the world. -/
theorem snapFile_Open_refines_member {σ : Type} (os : OS σ) (f : SnapFileEFIImage σ)
    (c : snap.Container σ) (w : World σ) (h : Option (ReadAtCloser σ)) (s1 : σ)
    (hc : f.Container = some c)
    (hraf : c.RandomAccessFile f.FileName w.st = (.ret (h, none), s1)) :
    ∃ hd : Handle σ,
      f.Open w = (.ret (some hd, none),
        { st := s1, calls := w.calls ++ [Call.RandomAccessFile c.id f.FileName] }) ∧
      (∀ path : String, ({ f with Path := path } : SnapFileEFIImage σ).Open w = f.Open w) ∧
      (∀ (p : List Byte) (off : Int) (w2 : World σ),
        hd.ReadAt os p off w2 = callReadAt h p off w2 ∧
        ∀ m, h = some m →
          (hd.ReadAt os p off w2).1 = (m.ReadAt p off w2.st).1 ∧
          (hd.ReadAt os p off w2).2.st = (m.ReadAt p off w2.st).2 ∧
          (hd.ReadAt os p off w2).2.calls = w2.calls ++ [Call.ReadAt m.id p off]) := by
  refine ⟨.snapFile { h := h }, ?_, fun _ => rfl, ?_⟩
  · simp [SnapFileEFIImage.Open, callRandomAccessFile, hc, hraf]
  · intro p off w2
    refine ⟨rfl, ?_⟩
    intro m hm
    subst hm
    exact ⟨rfl, rfl, rfl⟩

/-- C2 on the sample image: its member opens, and reading four bytes at offset 0 through
the returned handle gives what the member handle gives. -/
theorem snapFile_Open_refines_member_witness :
    ∃ hd : Handle FileSys,
      demoImage.Open demoWorld = (.ret (some hd, none),
        { st := demoFS, calls := [Call.RandomAccessFile 7 "EFI/boot/grubx64.efi"] }) ∧
      (hd.ReadAt memOS [0, 0, 0, 0] 0 demoWorld).1 = .ret ([77, 90, 1, 2], 4, none) := by
  obtain ⟨hd, hopen, _, hread⟩ := snapFile_Open_refines_member memOS demoImage demoContainer
    demoWorld (some (memberHandle 1 [77, 90, 1, 2])) demoFS rfl rfl
  refine ⟨hd, hopen, ?_⟩
  rw [((hread [0, 0, 0, 0] 0 demoWorld).2 _ rfl).1]
  rfl

/-! ### Operations on an open handle -/

/-- C7: after a successful open the backend result is passed on unchanged and without
retry.  `ReadAt` and `Close` of a container-backed handle make exactly one call of the
wrapped handle and end as that call ends, so an error `e` of the wrapped handle is the
error returned; and when the stat made by `Size()` of a file-backed handle fails with `e`,
`Size()` returns `(0, e)` after that one stat. -/
theorem backend_results_propagate {σ : Type} (os : OS σ) (w : World σ) :
    (∀ (m : ReadAtCloser σ) (p : List Byte) (off : Int),
      snapFileEFIImageHandle.ReadAt { h := some m } p off w
        = ((m.ReadAt p off w.st).1,
            { st := (m.ReadAt p off w.st).2, calls := w.calls ++ [Call.ReadAt m.id p off] })) ∧
    (∀ m : ReadAtCloser σ,
      snapFileEFIImageHandle.Close { h := some m } w
        = ((m.Close w.st).1,
            { st := (m.Close w.st).2, calls := w.calls ++ [Call.Close m.id] })) ∧
    (∀ (m : ReadAtCloser σ) (p buf : List Byte) (off n : Int) (e : GoError) (s : σ),
      m.ReadAt p off w.st = (.ret (buf, n, some e), s) →
        (snapFileEFIImageHandle.ReadAt { h := some m } p off w).1 = .ret (buf, n, some e)) ∧
    (∀ (m : ReadAtCloser σ) (e : GoError) (s : σ),
      m.Close w.st = (.ret (some e), s) →
        (snapFileEFIImageHandle.Close { h := some m } w).1 = .ret (some e)) ∧
    (∀ (fd : Nat) (e : GoError) (s : σ), os.Stat fd w.st = (.error e, s) →
      fileEFIImageHandle.Size os { File := fd } w
        = (.ret (0, some e), { st := s, calls := w.calls ++ [Call.osStat fd] })) := by
  refine ⟨fun _ _ _ => rfl, fun _ => rfl, ?_, ?_, ?_⟩
  · intro m p buf off n e s h
    simp [snapFileEFIImageHandle.ReadAt, callReadAt, h]
  · intro m e s h
    simp [snapFileEFIImageHandle.Close, callClose, h]
  · intro fd e s h
    simp [fileEFIImageHandle.Size, osStat, h]

/-- C7 on the samples: a member handle failing with "input/output error" gives that
error from `ReadAt` and `Close`, and `Size()` of a descriptor that is not open gives
`(0, "file already closed")` after one stat. -/
theorem backend_results_propagate_witness :
    (snapFileEFIImageHandle.ReadAt
        { h := some (brokenHandle 3 { msg := "input/output error" }) } [0, 0] 5 demoWorld).1
      = .ret ([0, 0], 0, some { msg := "input/output error" }) ∧
    (snapFileEFIImageHandle.Close
        { h := some (brokenHandle 3 { msg := "input/output error" }) } demoWorld).1
      = .ret (some { msg := "input/output error" }) ∧
    fileEFIImageHandle.Size memOS { File := 0 } demoWorld
      = (.ret (0, some errClosed), { st := demoFS, calls := [Call.osStat 0] }) :=
  ⟨(backend_results_propagate memOS demoWorld).2.2.1
      (brokenHandle 3 { msg := "input/output error" }) [0, 0] [0, 0] 5 0
      { msg := "input/output error" } demoFS rfl,
   (backend_results_propagate memOS demoWorld).2.2.2.1
      (brokenHandle 3 { msg := "input/output error" }) { msg := "input/output error" }
      demoFS rfl,
   (backend_results_propagate memOS demoWorld).2.2.2.2 0 errClosed demoFS rfl⟩

/-- C1 (as amended): on a handle returned by `Open()`, the operations of a file-backed
handle all return normally; `ReadAt` and `Close` of a container-backed handle end as the
wrapped member handle's operation ends (so they return normally whenever it does, and
panic only if it does or if the wrapped handle is nil), and `Size()` of a
container-backed handle always panics with "not implemented". -/
theorem handle_operations_outcomes {σ : Type} (os : OS σ) (i : EFIImage σ) (w w1 : World σ)
    (h : Handle σ) (hopen : i.Open os w = (.ret (some h, none), w1)) :
    (∀ p, i = .file p →
      ∀ (buf : List Byte) (off : Int) (w2 : World σ),
        (h.ReadAt os buf off w2).1.returns = true ∧
        (h.Size os w2).1.returns = true ∧
        (h.Close os w2).1.returns = true) ∧
    (∀ f, i = .snapFile f →
      ∃ b : Option (ReadAtCloser σ), h = .snapFile { h := b } ∧
        ∀ (buf : List Byte) (off : Int) (w2 : World σ),
          (h.Size os w2).1 = .panic "not implemented" ∧
          (∀ m, b = some m →
            (h.ReadAt os buf off w2).1 = (m.ReadAt buf off w2.st).1 ∧
            (h.Close os w2).1 = (m.Close w2.st).1) ∧
          (b = none →
            (h.ReadAt os buf off w2).1 = .panic nilDereference ∧
            (h.Close os w2).1 = .panic nilDereference)) := by
  constructor
  · intro p hi buf off w2
    subst hi
    simp only [EFIImage.Open, FileEFIImage.Open] at hopen
    split at hopen
    · simp at hopen
    · rename_i fd w3 _
      simp only [Prod.mk.injEq, Outcome.ret.injEq, Option.some.injEq, and_true] at hopen
      rw [← hopen.1]
      refine ⟨rfl, ?_, rfl⟩
      simp only [Handle.Size, fileEFIImageHandle.Size]
      split <;> rfl
  · intro f hi
    subst hi
    simp only [EFIImage.Open, SnapFileEFIImage.Open] at hopen
    split at hopen
    · simp at hopen
    · simp at hopen
    · rename_i b w3 _
      simp only [Prod.mk.injEq, Outcome.ret.injEq, Option.some.injEq, and_true] at hopen
      refine ⟨b, hopen.1.symm, ?_⟩
      rw [← hopen.1]
      intro buf off w2
      refine ⟨rfl, ?_, ?_⟩
      · intro m hm
        subst hm
        exact ⟨rfl, rfl⟩
      · intro hb
        subst hb
        exact ⟨rfl, rfl⟩

/-- C1 (as amended) on the sample file: the handle opened on it returns from `ReadAt`,
`Size` and `Close`. -/
theorem handle_operations_outcomes_witness :
    (Handle.ReadAt memOS (.file { File := 0 }) [0, 0] 1 demoWorld).1.returns = true ∧
    (Handle.Size memOS (.file { File := 0 }) demoWorld).1.returns = true ∧
    (Handle.Close memOS (.file { File := 0 }) demoWorld).1.returns = true :=
  (handle_operations_outcomes memOS (.file "/boot/efi/EFI/ubuntu/shimx64.efi") demoWorld
      demoOpened (.file { File := 0 }) rfl).1
    "/boot/efi/EFI/ubuntu/shimx64.efi" rfl [0, 0] 1 demoWorld

/-- C1 fails as stated: the sample image opens, and `Size()` on the container-backed
handle that `Open()` returned panics instead of returning a length or an error. -/
theorem snap_handle_Size_panics :
    ∃ (h : Handle FileSys) (w1 : World FileSys),
      EFIImage.Open memOS (.snapFile demoImage) demoWorld = (.ret (some h, none), w1) ∧
      (h.Size memOS w1).1 = .panic "not implemented" ∧
      (h.Size memOS w1).1.returns = false :=
  ⟨.snapFile { h := some (memberHandle 1 [77, 90, 1, 2]) },
   { st := demoFS, calls := [Call.RandomAccessFile 7 "EFI/boot/grubx64.efi"] },
   rfl, rfl, rfl⟩

/-! ### The file-backed handle on the in-memory file system -/

/-- A stat through the handle reports the length the file has in the current world. -/
theorem Size_of_content (fd : Nat) (w : World FileSys) (d : List Byte)
    (h : w.st.content fd = some d) :
    (Handle.Size memOS (.file { File := fd }) w).1 = .ret ((d.length : Int), none) := by
  simp [Handle.Size, fileEFIImageHandle.Size, osStat, memOS, memStat, h]

/-- A read of a range inside the file returns the bytes of that range. -/
theorem ReadAt_of_content (fd : Nat) (w : World FileSys) (d buf : List Byte) (off n : Nat)
    (h : w.st.content fd = some d) (hn : buf.length = n) (hr : off + n ≤ d.length) :
    (Handle.ReadAt memOS (.file { File := fd }) buf (off : Int) w).1
      = .ret ((d.drop off).take n, (n : Int), none) := by
  have hlen : ((d.drop off).take n).length = n := by
    simp only [List.length_take, List.length_drop]
    omega
  have hneg : ¬ ((off : Int) < 0) := by omega
  simp only [Handle.ReadAt, fileEFIImageHandle.ReadAt, osReadAt, memOS, memReadAt, h, hneg,
    if_false, Int.toNat_ofNat, hn, hlen, lt_irrefl]
  simp [← hn]

/-- C4: for a file-backed image of an existing file (on the in-memory file system),
`Open()` returns a handle whose `Size()` is the length the file has when `Size()` is
called: the length at open time right after the open, and the new length after the file
has been rewritten; and `ReadAt` of a range `[off, off+n)` inside the file returns exactly
the `n` bytes at that offset. -/
theorem file_handle_exposes_file (fs : FileSys) (calls : List Call) (p : FileEFIImage)
    (d0 : List Byte) (hex : fs.fileAt p = some d0) :
    ∃ (fd : Nat) (w1 : World FileSys),
      FileEFIImage.Open memOS p { st := fs, calls := calls }
        = (.ret (some (.file { File := fd }), none), w1) ∧
      (Handle.Size memOS (.file { File := fd }) w1).1 = .ret ((d0.length : Int), none) ∧
      (∀ d1 : List Byte,
        (Handle.Size memOS (.file { File := fd })
            { st := w1.st.write p d1, calls := w1.calls }).1
          = .ret ((d1.length : Int), none)) ∧
      (∀ (w2 : World FileSys) (d : List Byte), w2.st.content fd = some d →
        (Handle.Size memOS (.file { File := fd }) w2).1 = .ret ((d.length : Int), none) ∧
        ∀ (off n : Nat) (buf : List Byte), buf.length = n → off + n ≤ d.length →
          (Handle.ReadAt memOS (.file { File := fd }) buf (off : Int) w2).1
            = .ret ((d.drop off).take n, (n : Int), none)) := by
  unfold FileSys.fileAt at hex
  split at hex
  · simp at hex
  · rename_i i hl
    have hi : i < fs.inodes.length := by
      rcases Nat.lt_or_ge i fs.inodes.length with h | h
      · exact h
      · rw [List.getElem?_eq_none h] at hex
        simp at hex
    refine ⟨fs.fds.length,
      { st := { fs with fds := fs.fds ++ [some i] }, calls := calls ++ [Call.osOpen p] },
      ?_, ?_, ?_, ?_⟩
    · simp [FileEFIImage.Open, osOpen, memOS, memOpen, hl, hex]
    · apply Size_of_content
      simp [FileSys.content, hex]
    · intro d1
      apply Size_of_content
      simp [FileSys.content, FileSys.write, hl, hi]
    · intro w2 d hd
      exact ⟨Size_of_content _ w2 d hd,
        fun off n buf hn hr => ReadAt_of_content _ w2 d buf off n hd hn hr⟩

/-- C4 on the sample file of five bytes: the open succeeds, `Size()` is 5, it is 2 once
the file has been rewritten with two bytes, and reading two bytes at offset 1 gives the
second and third byte. -/
theorem file_handle_exposes_file_witness :
    ∃ (fd : Nat) (w1 : World FileSys),
      FileEFIImage.Open memOS "/boot/efi/EFI/ubuntu/shimx64.efi" demoWorld
        = (.ret (some (.file { File := fd }), none), w1) ∧
      (Handle.Size memOS (.file { File := fd }) w1).1 = .ret (5, none) ∧
      (Handle.Size memOS (.file { File := fd })
          { st := w1.st.write "/boot/efi/EFI/ubuntu/shimx64.efi" [9, 9],
            calls := w1.calls }).1 = .ret (2, none) ∧
      (Handle.ReadAt memOS (.file { File := fd }) [0, 0] 1 w1).1 = .ret ([90, 3], 2, none) := by
  obtain ⟨fd, w1, hopen, hsize, hwrite, hlater⟩ :=
    file_handle_exposes_file demoFS [] "/boot/efi/EFI/ubuntu/shimx64.efi" [77, 90, 3, 4, 5] rfl
  refine ⟨fd, w1, hopen, hsize, hwrite [9, 9], ?_⟩
  have hw : w1 = demoOpened ∧ fd = 0 := by
    have h2 : FileEFIImage.Open memOS "/boot/efi/EFI/ubuntu/shimx64.efi" demoWorld
        = (.ret (some (.file { File := 0 }), none), demoOpened) := rfl
    have h3 := hopen.symm.trans h2
    simp only [Prod.mk.injEq, Outcome.ret.injEq, Option.some.injEq, Handle.file.injEq,
      fileEFIImageHandle.mk.injEq, and_true] at h3
    exact ⟨h3.2, h3.1⟩
  obtain ⟨hw1, hfd⟩ := hw
  subst hfd
  subst hw1
  exact (hlater demoOpened [77, 90, 3, 4, 5] rfl).2 1 2 [0, 0] rfl (by decide)

/-! ### Enumeration of the load-event tree -/

/-- A path is enumerated below a list of events exactly when it is enumerated for the
event at some position of the list. -/
theorem mem_enumerateAll {σ : Type} (p : List (PathEvent σ)) :
    ∀ (cs : List (EFIImageLoadEvent σ)) (k : Nat),
      p ∈ enumerateAll k cs ↔ ∃ j c, cs[j]? = some c ∧ p ∈ enumerateFrom (k + j) c
  | [], k => by simp [enumerateAll]
  | c :: cs, k => by
      simp only [enumerateAll, List.mem_append, mem_enumerateAll p cs (k + 1)]
      constructor
      · rintro (h | ⟨j, d, hj, hp⟩)
        · exact ⟨0, c, by simp, h⟩
        · refine ⟨j + 1, d, by simpa using hj, ?_⟩
          have e : k + (j + 1) = k + 1 + j := by omega
          rw [e]
          exact hp
      · rintro ⟨j, d, hj, hp⟩
        cases j with
        | zero =>
          simp only [List.getElem?_cons_zero, Option.some.injEq] at hj
          subst hj
          exact Or.inl hp
        | succ j =>
          refine Or.inr ⟨j, d, by simpa using hj, ?_⟩
          have e : k + (j + 1) = k + 1 + j := by omega
          rw [← e]
          exact hp

mutual
/-- Every enumerated path is a root-to-leaf path. -/
theorem enumerateFrom_sound {σ : Type} :
    ∀ (t : EFIImageLoadEvent σ) (k : Nat) (p : List (PathEvent σ)),
      p ∈ enumerateFrom k t → RootToLeaf k t p
  | .mk s i [], k, p, h => by
      simp only [enumerateFrom, List.mem_singleton] at h
      subst h
      exact RootToLeaf.leaf k s i
  | .mk s i (c :: cs), k, p, h => by
      simp only [enumerateFrom, List.mem_map] at h
      obtain ⟨q, hq, rfl⟩ := h
      obtain ⟨j, d, hd, hp⟩ := enumerateAll_sound (c :: cs) 0 q hq
      rw [Nat.zero_add] at hp
      exact RootToLeaf.step k s i (c :: cs) j d q hd hp
/-- Every path enumerated below a list of events is a root-to-leaf path of the event at
some position of the list. -/
theorem enumerateAll_sound {σ : Type} :
    ∀ (cs : List (EFIImageLoadEvent σ)) (k : Nat) (p : List (PathEvent σ)),
      p ∈ enumerateAll k cs → ∃ j c, cs[j]? = some c ∧ RootToLeaf (k + j) c p
  | [], k, p, h => by simp [enumerateAll] at h
  | c :: cs, k, p, h => by
      simp only [enumerateAll, List.mem_append] at h
      rcases h with h | h
      · exact ⟨0, c, by simp, enumerateFrom_sound c k p h⟩
      · obtain ⟨j, d, hd, hp⟩ := enumerateAll_sound cs (k + 1) p h
        refine ⟨j + 1, d, by simpa using hd, ?_⟩
        have e : k + (j + 1) = k + 1 + j := by omega
        rw [e]
        exact hp
end

/-- Every root-to-leaf path is enumerated. -/
theorem enumerateFrom_complete {σ : Type} (k : Nat) (t : EFIImageLoadEvent σ)
    (p : List (PathEvent σ)) (h : RootToLeaf k t p) : p ∈ enumerateFrom k t := by
  induction h with
  | leaf k s i => simp [enumerateFrom]
  | step k s i cs j c q hc _ ih =>
    cases cs with
    | nil => simp at hc
    | cons c0 cs0 =>
      simp only [enumerateFrom, List.mem_map]
      refine ⟨q, ?_, rfl⟩
      rw [mem_enumerateAll]
      exact ⟨j, c, hc, by rw [Nat.zero_add]; exact ih⟩

mutual
/-- One path is enumerated for each leaf. -/
theorem length_enumerateFrom {σ : Type} :
    ∀ (t : EFIImageLoadEvent σ) (k : Nat), (enumerateFrom k t).length = leafCount t
  | .mk s i [], k => by simp [enumerateFrom, leafCount]
  | .mk s i (c :: cs), k => by
      simp only [enumerateFrom, leafCount, List.length_map]
      exact length_enumerateAll (c :: cs) 0
/-- One path is enumerated for each leaf below a list of events. -/
theorem length_enumerateAll {σ : Type} :
    ∀ (cs : List (EFIImageLoadEvent σ)) (k : Nat),
      (enumerateAll k cs).length = leafCountAll cs
  | [], k => by simp [enumerateAll, leafCountAll]
  | c :: cs, k => by
      simp only [enumerateAll, leafCountAll, List.length_append]
      rw [length_enumerateFrom c k, length_enumerateAll cs (k + 1)]
end

/-- Every path enumerated for the event at position `k` starts at position `k`. -/
theorem slots_enumerateFrom {σ : Type} (k : Nat) (t : EFIImageLoadEvent σ)
    (p : List (PathEvent σ)) (h : p ∈ enumerateFrom k t) : ∃ q, slots p = k :: q := by
  cases t with
  | mk s i cs =>
    cases cs with
    | nil =>
      simp only [enumerateFrom, List.mem_singleton] at h
      subst h
      exact ⟨[], rfl⟩
    | cons c cs =>
      simp only [enumerateFrom, List.mem_map] at h
      obtain ⟨q, _, rfl⟩ := h
      exact ⟨slots q, rfl⟩

/-- Every path enumerated below a list whose first position is `k` starts at a position
from `k` on. -/
theorem slots_enumerateAll {σ : Type} (p : List (PathEvent σ)) :
    ∀ (cs : List (EFIImageLoadEvent σ)) (k : Nat), p ∈ enumerateAll k cs →
      ∃ j q, k ≤ j ∧ slots p = j :: q
  | [], k, h => by simp [enumerateAll] at h
  | c :: cs, k, h => by
      simp only [enumerateAll, List.mem_append] at h
      rcases h with h | h
      · obtain ⟨q, hq⟩ := slots_enumerateFrom k c p h
        exact ⟨k, q, Nat.le_refl k, hq⟩
      · obtain ⟨j, q, hj, hq⟩ := slots_enumerateAll p cs (k + 1) h
        exact ⟨j, q, by omega, hq⟩

/-- No route comes before itself. -/
theorem lex_lt_irrefl : ∀ l : List Nat, ¬ List.Lex (fun a b => a < b) l l
  | [], h => by cases h
  | a :: l, h => by
      cases h with
      | cons h1 => exact lex_lt_irrefl l h1
      | rel h1 => exact Nat.lt_irrefl a h1

mutual
/-- The routes of the enumerated paths come in strictly increasing order: an earlier
position of `Next` before a later one. -/
theorem sorted_enumerateFrom {σ : Type} :
    ∀ (t : EFIImageLoadEvent σ) (k : Nat),
      ((enumerateFrom k t).map slots).Pairwise (List.Lex (fun a b => a < b))
  | .mk s i [], k => by simp [enumerateFrom]
  | .mk s i (c :: cs), k => by
      have h := sorted_enumerateAll (c :: cs) 0
      simp only [enumerateFrom, List.map_map]
      rw [List.pairwise_map] at h ⊢
      exact h.imp (fun hab => List.Lex.cons hab)
/-- The routes of the paths enumerated below a list of events come in strictly increasing
order. -/
theorem sorted_enumerateAll {σ : Type} :
    ∀ (cs : List (EFIImageLoadEvent σ)) (k : Nat),
      ((enumerateAll k cs).map slots).Pairwise (List.Lex (fun a b => a < b))
  | [], k => by simp [enumerateAll]
  | c :: cs, k => by
      simp only [enumerateAll, List.map_append]
      rw [List.pairwise_append]
      refine ⟨sorted_enumerateFrom c k, sorted_enumerateAll cs (k + 1), ?_⟩
      intro a ha b hb
      rw [List.mem_map] at ha hb
      obtain ⟨p, hp, rfl⟩ := ha
      obtain ⟨q, hq, rfl⟩ := hb
      obtain ⟨p1, hp1⟩ := slots_enumerateFrom k c p hp
      obtain ⟨j, q1, hj, hq1⟩ := slots_enumerateAll q cs (k + 1) hq
      rw [hp1, hq1]
      exact List.Lex.rel (by omega)
end

/-- No path is enumerated twice. -/
theorem nodup_enumerateFrom {σ : Type} (t : EFIImageLoadEvent σ) (k : Nat) :
    (enumerateFrom k t).Nodup := by
  have h := sorted_enumerateFrom t k
  rw [List.pairwise_map] at h
  unfold List.Nodup
  refine h.imp ?_
  intro a b hab heq
  rw [heq] at hab
  exact lex_lt_irrefl _ hab

/-- The (Source, Image) pairs along the enumerated paths do not depend on the position of
the event the enumeration starts from. -/
theorem steps_enumerateFrom {σ : Type} (t : EFIImageLoadEvent σ) (k j : Nat) :
    (enumerateFrom k t).map steps = (enumerateFrom j t).map steps := by
  cases t with
  | mk s i cs =>
    cases cs with
    | nil => simp [enumerateFrom, steps, PathEvent.step]
    | cons c cs =>
      simp only [enumerateFrom, List.map_map]
      rfl

/-- The (Source, Image) pairs along the paths below a list of events do not depend on the
position of its first event. -/
theorem steps_enumerateAll {σ : Type} :
    ∀ (cs : List (EFIImageLoadEvent σ)) (k j : Nat),
      (enumerateAll k cs).map steps = (enumerateAll j cs).map steps
  | [], k, j => by simp [enumerateAll]
  | c :: cs, k, j => by
      simp only [enumerateAll, List.map_append]
      rw [steps_enumerateFrom c k j, steps_enumerateAll cs (k + 1) (j + 1)]

/-- The paths below a concatenation of two lists of events: those of the first list, then
those of the second. -/
theorem enumerateAll_append {σ : Type} :
    ∀ (cs1 cs2 : List (EFIImageLoadEvent σ)) (k : Nat),
      enumerateAll k (cs1 ++ cs2) = enumerateAll k cs1 ++ enumerateAll (k + cs1.length) cs2
  | [], cs2, k => by simp [enumerateAll]
  | c :: cs1, cs2, k => by
      have e : k + 1 + cs1.length = k + (cs1.length + 1) := by omega
      have ih := enumerateAll_append cs1 cs2 (k + 1)
      rw [e] at ih
      show enumerateAll k (c :: (cs1 ++ cs2))
        = enumerateAll k (c :: cs1) ++ enumerateAll (k + (cs1.length + 1)) cs2
      simp only [enumerateAll, List.append_assoc, ih]

/-- The (Source, Image) pairs along the paths of an event with children: those along the
paths below the children, each preceded by the pair of the event itself. -/
theorem steps_enumerate_of_children {σ : Type} (s : EFIImageLoadEventSource)
    (i : Option (EFIImage σ)) :
    ∀ cs : List (EFIImageLoadEvent σ), cs ≠ [] →
      (enumerate (.mk s i cs)).map steps
        = ((enumerateAll 0 cs).map steps).map (fun q => (s, i) :: q)
  | [], h => absurd rfl h
  | c :: cs, _ => by
      simp only [enumerate, enumerateFrom, List.map_map]
      rfl

/-- A linear chain has exactly one path: its events in construction order. -/
theorem steps_enumerateFrom_chain {σ : Type} :
    ∀ (e : PathStep σ) (es : List (PathStep σ)) (k : Nat),
      (enumerateFrom k (chain e es)).map steps = [e :: es]
  | e, [], k => by simp [chain, enumerateFrom, steps, PathEvent.step]
  | e, e1 :: es, k => by
      have ih := steps_enumerateFrom_chain e1 es 0
      simp only [chain, enumerateFrom, enumerateAll, List.append_nil, List.map_map]
      have h2 : (steps ∘ fun p => ({ slot := k, Source := e.1, Image := e.2 } : PathEvent σ) :: p)
          = (fun q => e :: q) ∘ steps := rfl
      rw [h2, ← List.map_map, ih]
      rfl

/-- C5: the depth-first enumeration of an event tree yields exactly its root-to-leaf
paths: every enumerated path runs from the root to a leaf and every such path is
enumerated, once (no path comes twice, one path per leaf), in `Next` order (the routes
are strictly increasing, so the paths through an earlier child come before those through
a later one).  A linear chain yields one path, with the (Source, Image) pairs of all its
events in construction order.  A root with two leaf children yields exactly two distinct
paths, through the first child and then through the second; in the example they read
[bootloader.efi, kernel-A.efi] then [bootloader.efi, kernel-B.efi], each tagged
[Firmware, Shim]. -/
theorem enumerate_is_root_to_leaf_paths {σ : Type} (t : EFIImageLoadEvent σ) :
    (∀ p, p ∈ enumerate t ↔ RootToLeaf 0 t p) ∧
    (enumerate t).Nodup ∧
    (enumerate t).length = leafCount t ∧
    ((enumerate t).map slots).Pairwise (List.Lex (fun a b => a < b)) ∧
    (∀ s i (cs1 cs2 : List (EFIImageLoadEvent σ)), cs1 ≠ [] → cs2 ≠ [] →
      (enumerate (.mk s i (cs1 ++ cs2))).map steps
        = (enumerate (.mk s i cs1)).map steps ++ (enumerate (.mk s i cs2)).map steps) ∧
    (∀ (e : PathStep σ) (es : List (PathStep σ)),
      (enumerate (chain e es)).map steps = [e :: es]) ∧
    (∀ r a b : PathStep σ,
      enumerate (.mk r.1 r.2 [.mk a.1 a.2 [], .mk b.1 b.2 []])
        = [[⟨0, r.1, r.2⟩, ⟨0, a.1, a.2⟩], [⟨0, r.1, r.2⟩, ⟨1, b.1, b.2⟩]] ∧
      (enumerate (.mk r.1 r.2 [.mk a.1 a.2 [], .mk b.1 b.2 []])).map steps
        = [[r, a], [r, b]] ∧
      ([⟨0, r.1, r.2⟩, ⟨0, a.1, a.2⟩] : List (PathEvent σ))
        ≠ [⟨0, r.1, r.2⟩, ⟨1, b.1, b.2⟩]) ∧
    (enumerate (exampleTree σ)).map steps
      = [[(Firmware, some (.file "bootloader.efi")), (Shim, some (.file "kernel-A.efi"))],
         [(Firmware, some (.file "bootloader.efi")), (Shim, some (.file "kernel-B.efi"))]] ∧
    ([(Firmware, some (.file "bootloader.efi")), (Shim, some (.file "kernel-A.efi"))] :
        List (PathStep σ))
      ≠ [(Firmware, some (.file "bootloader.efi")), (Shim, some (.file "kernel-B.efi"))] := by
  refine ⟨fun p => ⟨enumerateFrom_sound t 0 p, enumerateFrom_complete 0 t p⟩,
    nodup_enumerateFrom t 0, length_enumerateFrom t 0, sorted_enumerateFrom t 0,
    ?_, fun e es => steps_enumerateFrom_chain e es 0, ?_, ?_, ?_⟩
  · intro s i cs1 cs2 h1 h2
    rw [steps_enumerate_of_children s i cs1 h1, steps_enumerate_of_children s i cs2 h2,
      steps_enumerate_of_children s i (cs1 ++ cs2) (by simp [h1]), enumerateAll_append,
      List.map_append, List.map_append, steps_enumerateAll cs2 (0 + cs1.length) 0]
  · intro r a b
    refine ⟨by simp [enumerate, enumerateFrom, enumerateAll], ?_, by simp⟩
    simp [enumerate, enumerateFrom, enumerateAll, steps, PathEvent.step]
  · simp [exampleTree, enumerate, enumerateFrom, enumerateAll, steps, PathEvent.step]
  · simp

end Secboot
